import Mathlib

/-!
# Durability Score API — formal model

Shallow embedding of the core of `app.py` (validator, scorer, repository,
aggregator) from the durability-score-api repository, together with proofs
of the specification claims.

Python values reaching the validator are dynamically typed; we embed the
relevant universe of JSON-decoded values as `JVal` (scalars and flat lists
of scalars — the only shapes the program ever inspects).
-/

/-- A scalar JSON-decoded Python value (element of a `materials` list). -/
inductive JScalar where
  | str (s : String)
  | num (q : ℚ)
  | bool (b : Bool)
  | null
deriving DecidableEq, Repr

/-- A JSON-decoded Python value as it appears in a request body field:
a scalar or a list of scalars.  (`num` covers both Python `int` and
`float`; `bool` is kept separate because `isinstance(True, int)` holds in
Python while `isinstance(True, str)` does not.) -/
inductive JVal where
  | str (s : String)
  | num (q : ℚ)
  | bool (b : Bool)
  | null
  | list (xs : List JScalar)
deriving DecidableEq, Repr

namespace JVal

/-- `isinstance(v, str)` -/
def isStr : JVal → Bool
  | .str _ => true
  | _ => false

/-- `isinstance(v, list)` -/
def isList : JVal → Bool
  | .list _ => true
  | _ => false

/-- `isinstance(v, (int, float))` — note Python `bool` is a subclass of
`int`, so booleans pass this check. -/
def isNum : JVal → Bool
  | .num _ => true
  | .bool _ => true
  | _ => false

end JVal

/-- The raw request body, restricted to the five fields `validate_input`
ever reads.  `none` models an absent key. -/
structure RawData where
  product_name : Option JVal
  materials : Option JVal
  weight_grams : Option JVal
  transport : Option JVal
  packaging : Option JVal
deriving DecidableEq, Repr

/-- `allowed_transports` from `validate_input`. -/
def allowedTransports : List String := ["air", "rail", "sea", "road"]

/-- `allowed_packaging` from `validate_input`. -/
def allowedPackaging : List String := ["recyclable", "biodegradable", "non-recyclable"]

/-- The `required_fields` table of `validate_input`, in its (insertion-
ordered) iteration order: field name, the field's value in `data`, the
`isinstance` check, and the printed form of the expected type. -/
def fieldChecks (d : RawData) : List (String × Option JVal × (JVal → Bool) × String) :=
  [("product_name", d.product_name, JVal.isStr, "<class 'str'>"),
   ("materials", d.materials, JVal.isList, "<class 'list'>"),
   ("weight_grams", d.weight_grams, JVal.isNum, "(<class 'int'>, <class 'float'>)"),
   ("transport", d.transport, JVal.isStr, "<class 'str'>"),
   ("packaging", d.packaging, JVal.isStr, "<class 'str'>")]

/-- The `for field, expected_type in required_fields.items()` loop of
`validate_input`: first missing-or-mistyped field short-circuits. -/
def checkFields : List (String × Option JVal × (JVal → Bool) × String) → Option String
  | [] => none
  | (f, v?, ty, tyStr) :: rest =>
    match v? with
    | none => some ("'" ++ f ++ "' is required")
    | some v => if ty v then checkFields rest
                else some ("'" ++ f ++ "' must be of type " ++ tyStr)

/-- `validate_input(data)` from `app.py`: presence/type loop, then the two
enum checks; returns the first error message, or `none` on success. -/
def validate_input (d : RawData) : Option String :=
  match checkFields (fieldChecks d) with
  | some e => some e
  | none =>
    if !((allowedTransports.map JVal.str).contains (d.transport.getD JVal.null)) then
      some "'transport' must be one of ['air', 'rail', 'sea', 'road']"
    else if !((allowedPackaging.map JVal.str).contains (d.packaging.getD JVal.null)) then
      some "'packaging' must be one of ['recyclable', 'biodegradable', 'non-recyclable']"
    else none

/-- The typed shape of a request that passed validation: the five fields
as the `score` endpoint extracts them (`materials` stays a list of
arbitrary scalars — validation only checks that it is a list). -/
structure ProductInput where
  product_name : String
  materials : List JScalar
  weight_grams : ℚ
  transport : String
  packaging : String
deriving DecidableEq, Repr

/-- Python numeric coercion used where a validated `weight_grams` (an
`int`, `float` or `bool`) meets the comparison `weight_grams > 500`. -/
def jnumToRat : JVal → ℚ
  | .num q => q
  | .bool b => if b then 1 else 0
  | _ => 0

/-- Field extraction performed by the `score` endpoint after successful
validation (`data["product_name"]`, …). -/
def parseInput (d : RawData) : Option ProductInput :=
  match d.product_name, d.materials, d.weight_grams, d.transport, d.packaging with
  | some (.str n), some (.list m), some w, some (.str t), some (.str p) =>
    if w.isNum then some ⟨n, m, jnumToRat w, t, p⟩ else none
  | _, _, _, _, _ => none

/-- `m in materials` for a string literal `m`, as Python evaluates it on a
list of scalars. -/
def hasMat (p : ProductInput) (m : String) : Bool :=
  p.materials.contains (JScalar.str m)

/-- The numeric part of the scoring rules of the `score` endpoint:
baseline 100 plus the additive deltas of the six rules. -/
def scoreOf (p : ProductInput) : ℤ :=
  100
  + (if hasMat p "plastic" then -10 else 0)
  + (if hasMat p "recycled" then 10 else 0)
  + (if hasMat p "aluminum" then 5 else 0)
  + (if p.transport == "air" then -15
     else if p.transport == "rail" || p.transport == "sea" then 5 else 0)
  + (if p.packaging == "recyclable" || p.packaging == "biodegradable" then 10 else 0)
  + (if p.weight_grams > 500 then -5 else 0)

/-- The suggestion list built by the `score` endpoint, in the order the
six rules append. -/
def suggestionsOf (p : ProductInput) : List String :=
  (if hasMat p "plastic" then ["Avoid using plastic"] else [])
  ++ (if hasMat p "aluminum" && !(hasMat p "recycled")
      then ["Consider using recycled aluminum"] else [])
  ++ (if p.transport == "air" then ["Avoid air transport"] else [])
  ++ (if !(p.packaging == "recyclable" || p.packaging == "biodegradable")
      then ["Use recyclable or biodegradable packaging"] else [])
  ++ (if p.weight_grams > 500 then ["Reduce product weight"] else [])

/-- The rating thresholds at the end of the `score` endpoint. -/
def ratingOf (s : ℤ) : String :=
  if s ≥ 90 then "A" else if s ≥ 75 then "B" else if s ≥ 60 then "C" else "D"

/-- The triple the Scorer computes for a validated input. -/
structure ScoreResult where
  score : ℤ
  rating : String
  suggestions : List String
deriving DecidableEq, Repr

/-- `score()`'s pure computation: rules, rating, suggestions. -/
def computeScore (p : ProductInput) : ScoreResult :=
  ⟨scoreOf p, ratingOf (scoreOf p), suggestionsOf p⟩

/-- Round-half-even to an integer, the rounding of Python's `round`
(modelled exactly on rationals).  `f` is the floor of `x` and
`r = x.num - f * x.den` its fractional part scaled by the denominator,
so `x - f < 1/2` is `2 * r < x.den`; everything stays in integer
arithmetic so that the kernel can evaluate it. -/
def roundHalfEven (x : ℚ) : ℤ :=
  let f := Int.fdiv x.num x.den
  let r := x.num - f * x.den
  if 2 * r < x.den then f
  else if 2 * r > x.den then f + 1
  else if f % 2 = 0 then f else f + 1

/-- `round(x, 2)`: round-half-even to 2 decimal places. -/
def round2 (x : ℚ) : ℚ := (roundHalfEven (x * 100) : ℚ) / 100

/-! ## JSON text serialization of the suggestions column

`app.py` stores `json.dumps(suggestions)` in the `suggestions` Text column
and reads it back with `json.loads`.  We model `json.dumps` on lists of
strings exactly (default options: `ensure_ascii=True`, separator `", "`),
and `json.loads` restricted to the array-of-strings grammar (on an input
that is not such an array, Python would raise or produce non-string
items; the model returns `none` there — those inputs are unreachable from
the store, which only ever holds `dumps` output). -/

/-- Lowercase hexadecimal digit, as CPython's JSON encoder prints. -/
def hexDigit (n : ℕ) : Char :=
  if n < 10 then Char.ofNat (48 + n) else Char.ofNat (87 + n)

/-- A `\uXXXX` escape for a 16-bit unit. -/
def u16Escape (n : ℕ) : List Char :=
  ['\\', 'u', hexDigit (n / 4096 % 16), hexDigit (n / 256 % 16),
   hexDigit (n / 16 % 16), hexDigit (n % 16)]

/-- How `json.dumps` (with `ensure_ascii=True`) renders one character of a
string: the two-character shortcuts, `\uXXXX` (with surrogate pairs above
the BMP) for other control or non-ASCII characters, the character itself
otherwise. -/
def escChar (c : Char) : List Char :=
  if c = '\\' then ['\\', '\\']
  else if c = '"' then ['\\', '"']
  else if c = '\x08' then ['\\', 'b']
  else if c = '\t' then ['\\', 't']
  else if c = '\n' then ['\\', 'n']
  else if c = '\x0c' then ['\\', 'f']
  else if c = '\x0d' then ['\\', 'r']
  else if c.toNat < 0x20 || 0x7e < c.toNat then
    if c.toNat < 0x10000 then u16Escape c.toNat
    else u16Escape (0xd800 + (c.toNat - 0x10000) / 1024)
         ++ u16Escape (0xdc00 + (c.toNat - 0x10000) % 1024)
  else [c]

/-- The escaped body of a JSON string. -/
def escList (s : List Char) : List Char :=
  s.foldr (fun c acc => escChar c ++ acc) []

/-- A JSON string literal: quote, escaped body, quote. -/
def quoteChars (s : List Char) : List Char :=
  '"' :: (escList s ++ ['"'])

/-- The comma-space-separated items of a JSON array, as `json.dumps`
emits them with the default separators. -/
def dumpsInner : List (List Char) → List Char
  | [] => []
  | [s] => quoteChars s
  | s :: rest => quoteChars s ++ (',' :: ' ' :: dumpsInner rest)

/-- `json.dumps` on a list of strings. -/
def dumpsList (l : List String) : String :=
  String.mk ('[' :: (dumpsInner (l.map String.data) ++ [']']))

/-- JSON inter-token whitespace. -/
def isJsonWs (c : Char) : Bool :=
  c = ' ' || c = '\t' || c = '\n' || c = '\x0d'

/-- Skip inter-token whitespace. -/
def skipWs (cs : List Char) : List Char := cs.dropWhile isJsonWs

/-- Value of one hexadecimal digit. -/
def hexVal (c : Char) : Option ℕ :=
  if '0' ≤ c ∧ c ≤ '9' then some (c.toNat - 48)
  else if 'a' ≤ c ∧ c ≤ 'f' then some (c.toNat - 87)
  else if 'A' ≤ c ∧ c ≤ 'F' then some (c.toNat - 55)
  else none

/-- Prepend a decoded character to a string-parse result. -/
def consCh (c : Char) (r : Option (List Char × List Char)) :
    Option (List Char × List Char) :=
  r.map (fun p => (c :: p.1, p.2))

/-- Decode one escape sequence after a backslash, as `json.loads` does:
the eight shortcuts and `\uXXXX`; anything else is rejected.  (A lone
`\uXXXX` unit is decoded as a single code point; surrogate-pair joining,
which only matters for non-ASCII data that never reaches the store, is
not modelled.) -/
def decodeEsc (cs : List Char) : Option (Char × List Char) :=
  match cs with
  | [] => none
  | e :: rest =>
    if e = '"' then some ('"', rest)
    else if e = '\\' then some ('\\', rest)
    else if e = '/' then some ('/', rest)
    else if e = 'b' then some ('\x08', rest)
    else if e = 'f' then some ('\x0c', rest)
    else if e = 'n' then some ('\n', rest)
    else if e = 'r' then some ('\x0d', rest)
    else if e = 't' then some ('\t', rest)
    else if e = 'u' then
      match rest with
      | h1 :: h2 :: h3 :: h4 :: rest2 =>
        (match hexVal h1, hexVal h2, hexVal h3, hexVal h4 with
         | some a, some b, some c, some d =>
           some (Char.ofNat (4096 * a + 256 * b + 16 * c + d), rest2)
         | _, _, _, _ => none)
      | _ => none
    else none

/-- Parse the body of a JSON string (the opening quote already consumed):
returns the decoded characters and the input after the closing quote.
Mirrors `json.loads`'s strict scanner: unescaped control characters and
invalid escapes are rejected.  `fuel` is a structural-recursion bound;
every step consumes at least one character, so any `fuel` of at least
the input length is enough. -/
def parseJStringF : ℕ → List Char → Option (List Char × List Char)
  | 0, _ => none
  | _ + 1, [] => none
  | fuel + 1, c :: rest =>
    if c = '"' then some ([], rest)
    else if c = '\\' then
      match decodeEsc rest with
      | some (e, rest2) => consCh e (parseJStringF fuel rest2)
      | none => none
    else if c.toNat < 0x20 then none
    else consCh c (parseJStringF fuel rest)

/-- Parse the items of a JSON array of strings, positioned at the first
item; returns the decoded items and the input after the closing `]`.
`fuel` bounds the number of items; every call site supplies at least the
input length, which the item count can never reach. -/
def parseElemsF : ℕ → List Char → Option (List (List Char) × List Char)
  | 0, _ => none
  | _ + 1, [] => none
  | fuel + 1, c :: cs1 =>
    if c = '"' then
      match parseJStringF cs1.length cs1 with
      | some (s, rest) =>
        (match skipWs rest with
         | ']' :: r2 => some ([s], r2)
         | ',' :: r2 => (parseElemsF fuel (skipWs r2)).map (fun pr => (s :: pr.1, pr.2))
         | _ => none)
      | none => none
    else none

/-- `json.loads` restricted to the array-of-strings grammar: whitespace,
`[`, items, `]`, end of input. -/
def loadsStrList (str : String) : Option (List String) :=
  match skipWs str.data with
  | '[' :: cs1 =>
    (match skipWs cs1 with
     | ']' :: r => if (skipWs r).isEmpty then some [] else none
     | cs2 =>
       match parseElemsF (str.length + 1) cs2 with
       | some (items, r) =>
         if (skipWs r).isEmpty then some (items.map String.mk) else none
       | none => none)
  | _ => none

/-! ## Repository and aggregator -/

/-- A row of the `submission` table: the score endpoint stores
`round(score, 2)` in the Float column and `json.dumps(suggestions)` in
the Text column. -/
structure Submission where
  id : ℕ
  product_name : String
  sustainability_score : ℚ
  rating : String
  suggestions : String
deriving DecidableEq, Repr

/-- The row the `score` endpoint builds for a validated input, with the
auto-increment identifier `k`. -/
def mkEntry (k : ℕ) (p : ProductInput) : Submission :=
  ⟨k, p.product_name, round2 ((scoreOf p : ℚ)), ratingOf (scoreOf p),
   dumpsList (suggestionsOf p)⟩

/-- `db.session.add(entry); db.session.commit()`: append with the next
auto-increment identifier. -/
def insertSub (st : List Submission) (p : ProductInput) : List Submission :=
  st ++ [mkEntry (st.length + 1) p]

/-- The store after a sequence of successful `POST /score` requests,
starting from an empty table. -/
def processAll (inputs : List ProductInput) : List Submission :=
  inputs.foldl insertSub []

/-- One element of the `GET /history` response. -/
structure HistoryItem where
  product_name : String
  sustainability_score : ℚ
  rating : String
  suggestions : List String
deriving DecidableEq, Repr

/-- `GET /history`: full scan in insertion order, deserializing each
`suggestions` column with `json.loads` (`none` models the exception a
corrupt blob would raise). -/
def get_history (st : List Submission) : Option (List HistoryItem) :=
  st.mapM (fun e =>
    (loadsStrList e.suggestions).map
      (fun sg => ⟨e.product_name, e.sustainability_score, e.rating, sg⟩))

/-- The `ratings_counter` dict of `score_summary`: exactly the four keys
A, B, C, D. -/
structure RatingsCount where
  A : ℕ
  B : ℕ
  C : ℕ
  D : ℕ
deriving DecidableEq, Repr

/-- The `if e.rating in ratings_counter: ratings_counter[e.rating] += 1`
loop of `score_summary`. -/
def countRatings : List Submission → RatingsCount
  | [] => ⟨0, 0, 0, 0⟩
  | e :: rest =>
    let r := countRatings rest
    if e.rating == "A" then {r with A := r.A + 1}
    else if e.rating == "B" then {r with B := r.B + 1}
    else if e.rating == "C" then {r with C := r.C + 1}
    else if e.rating == "D" then {r with D := r.D + 1}
    else r

/-- The distinct elements of `l` in first-occurrence order with their
multiplicities: the items of `collections.Counter(l)` in dict order. -/
def counterItems (l : List String) : List (String × ℕ) :=
  (l.foldl (fun acc s => if acc.contains s then acc else acc ++ [s]) []).map
    (fun s => (s, l.count s))

/-- Stable insertion into a count-descending list: the inserted element
goes before every element of equal or smaller count (it originated
earlier in the input). -/
def insStable (x : String × ℕ) : List (String × ℕ) → List (String × ℕ)
  | [] => [x]
  | y :: ys => if x.2 ≥ y.2 then x :: y :: ys else y :: insStable x ys

/-- Stable sort by descending count — the ordering `Counter.most_common`
produces (`heapq.nlargest` is documented as the stable
`sorted(..., reverse=True)` prefix). -/
def stableSortDesc : List (String × ℕ) → List (String × ℕ)
  | [] => []
  | x :: xs => insStable x (stableSortDesc xs)

/-- `[issue for issue, _ in Counter(issues_list).most_common(3)]`. -/
def most_common3 (l : List String) : List String :=
  ((stableSortDesc (counterItems l)).take 3).map Prod.fst

/-- The `GET /score-summary` response body. -/
structure Summary where
  total_products : ℕ
  average_score : ℚ
  ratings : RatingsCount
  top_issues : List String
deriving DecidableEq, Repr

/-- `score_summary()` from `app.py`: the empty-store short-circuit, then
count, mean (rounded to 2 decimals), the ratings histogram, and the top
three recurring suggestions (`none` models the exception raised if some
stored blob failed to deserialize). -/
def summarize (entries : List Submission) : Option Summary :=
  if entries.isEmpty then some ⟨0, 0, ⟨0, 0, 0, 0⟩, []⟩
  else
    match entries.mapM (fun e => loadsStrList e.suggestions) with
    | none => none
    | some suggLists =>
      some ⟨entries.length,
            round2 ((entries.map Submission.sustainability_score).sum / entries.length),
            countRatings entries,
            most_common3 suggLists.flatten⟩

/-! ## Spec-side definitions

These follow the wording of the specification (not the code); the
refinement claims compare them with the code-side definitions above. -/

/-- Modelled from the spec: "rank by descending frequency, break
frequency ties by the suggestion text's first-occurrence order": `x`
strictly precedes `y` when its count is larger, or counts are equal and
its first-occurrence rank is smaller.  Elements are `((text, count),
rank)`. -/
def specPrecedes (x y : (String × ℕ) × ℕ) : Bool :=
  x.1.2 > y.1.2 || (x.1.2 == y.1.2 && x.2 < y.2)

/-- Insertion into a list sorted by `specPrecedes`. -/
def insSpec (x : (String × ℕ) × ℕ) :
    List ((String × ℕ) × ℕ) → List ((String × ℕ) × ℕ)
  | [] => [x]
  | y :: ys => if specPrecedes x y then x :: y :: ys else y :: insSpec x ys

/-- Sort by `specPrecedes` (total order: ranks are distinct). -/
def sortSpec : List ((String × ℕ) × ℕ) → List ((String × ℕ) × ℕ)
  | [] => []
  | x :: xs => insSpec x (sortSpec xs)

/-- Modelled from the spec: "flatten every submission's suggestions into
one multiset, rank by descending frequency, break frequency ties by the
suggestion text's first-occurrence order across the flattened sequence,
take the top 3". -/
def specTopIssues (flat : List String) : List String :=
  let ranked := (counterItems flat).enum.map (fun p => (p.2, p.1))
  ((sortSpec ranked).map (fun q => q.1.1)).take 3

/-- Modelled from the spec (§4.1): the failing checks of a raw record, in
the spec's fixed order — presence/type for the five fields, then the two
enum checks. -/
def specValidationErrors (d : RawData) : List String :=
  (match d.product_name with
   | none => ["'product_name' is required"]
   | some v => if v.isStr then [] else ["'product_name' must be of type <class 'str'>"])
  ++ (match d.materials with
      | none => ["'materials' is required"]
      | some v => if v.isList then [] else ["'materials' must be of type <class 'list'>"])
  ++ (match d.weight_grams with
      | none => ["'weight_grams' is required"]
      | some v => if v.isNum then []
                  else ["'weight_grams' must be of type (<class 'int'>, <class 'float'>)"])
  ++ (match d.transport with
      | none => ["'transport' is required"]
      | some v => if v.isStr then [] else ["'transport' must be of type <class 'str'>"])
  ++ (match d.packaging with
      | none => ["'packaging' is required"]
      | some v => if v.isStr then [] else ["'packaging' must be of type <class 'str'>"])
  ++ (if (allowedTransports.map JVal.str).contains (d.transport.getD JVal.null) then []
      else ["'transport' must be one of ['air', 'rail', 'sea', 'road']"])
  ++ (if (allowedPackaging.map JVal.str).contains (d.packaging.getD JVal.null) then []
      else ["'packaging' must be one of ['recyclable', 'biodegradable', 'non-recyclable']"])

/-- Modelled from the spec (§3): the ProductInput invariant the claim
C4 ascribes to accepted records — in particular a non-empty
`product_name` and a non-negative `weight_grams`. -/
def productNameWeightInvariant (d : RawData) : Prop :=
  (∃ s : String, d.product_name = some (JVal.str s) ∧ s ≠ "")
  ∧ (∃ q : ℚ, d.weight_grams = some (JVal.num q) ∧ 0 ≤ q)

/-- A character that `json.dumps` emits verbatim and `json.loads` reads
verbatim: printable ASCII other than quote and backslash.  Every
character of every fixed suggestion string is plain. -/
def plainChar (c : Char) : Bool :=
  32 ≤ c.toNat && c.toNat ≤ 126 && !(c == '"') && !(c == '\\')

/-- A string all of whose characters are plain. -/
def plainStr (s : String) : Bool := s.data.all plainChar

/-- The ordering A > B > C > D on ratings, as a rank. -/
def ratingRank (r : String) : ℕ :=
  if r == "A" then 3 else if r == "B" then 2 else if r == "C" then 1 else 0

/-- The `GET /history` item a validated input gives rise to. -/
def itemOf (p : ProductInput) : HistoryItem :=
  ⟨p.product_name, round2 ((scoreOf p : ℚ)), ratingOf (scoreOf p), suggestionsOf p⟩

/-- The rows a sequence of inputs appends after `k` existing rows. -/
def buildFrom (k : ℕ) : List ProductInput → List Submission
  | [] => []
  | p :: ps => mkEntry (k + 1) p :: buildFrom (k + 1) ps

/-- One field's contribution to the list of failing presence/type checks
(used to relate the validator's loop to the spec-side error list). -/
def fieldErr : String × Option JVal × (JVal → Bool) × String → List String
  | (f, v?, ty, tyStr) =>
    match v? with
    | none => ["'" ++ f ++ "' is required"]
    | some v => if ty v then [] else ["'" ++ f ++ "' must be of type " ++ tyStr]

/-- All failing presence/type checks of a field list, in order. -/
def fieldErrs (L : List (String × Option JVal × (JVal → Bool) × String)) : List String :=
  L.foldr (fun x acc => fieldErr x ++ acc) []

/-! ## Round-trip of the suggestions column through `dumps`/`loads` -/

theorem plainChar_spec (c : Char) (h : plainChar c = true) :
    32 ≤ c.toNat ∧ c.toNat ≤ 126 ∧ c ≠ '"' ∧ c ≠ '\\' := by
  simp only [plainChar, Bool.and_eq_true, Bool.not_eq_true', beq_eq_false_iff_ne, ne_eq,
    decide_eq_true_eq] at h
  exact ⟨h.1.1.1, h.1.1.2, h.1.2, h.2⟩

theorem escChar_plain (c : Char) (h : plainChar c = true) : escChar c = [c] := by
  obtain ⟨hlo, hhi, hq, hbs⟩ := plainChar_spec c h
  unfold escChar
  rw [if_neg hbs, if_neg hq, if_neg ?h8, if_neg ?h9, if_neg ?ha, if_neg ?hc, if_neg ?hd,
    if_neg ?hrange]
  case h8 => rintro rfl; exact absurd hlo (by decide)
  case h9 => rintro rfl; exact absurd hlo (by decide)
  case ha => rintro rfl; exact absurd hlo (by decide)
  case hc => rintro rfl; exact absurd hlo (by decide)
  case hd => rintro rfl; exact absurd hlo (by decide)
  case hrange =>
    simp only [Bool.or_eq_true, decide_eq_true_eq, not_or, not_lt]
    omega

theorem escList_plain (s : List Char) (h : s.all plainChar = true) : escList s = s := by
  induction s with
  | nil => rfl
  | cons c t ih =>
    simp only [List.all_cons, Bool.and_eq_true] at h
    simp only [escList, List.foldr_cons]
    rw [escChar_plain c h.1]
    have := ih h.2
    simp only [escList] at this
    rw [this]
    rfl

theorem parseJStringF_plain (s : List Char) (rest : List Char) (fuel : ℕ)
    (h : s.all plainChar = true) (hf : s.length < fuel) :
    parseJStringF fuel (s ++ '"' :: rest) = some (s, rest) := by
  induction s generalizing fuel with
  | nil =>
    match fuel, hf with
    | f + 1, _ => simp [parseJStringF]
  | cons c t ih =>
    simp only [List.all_cons, Bool.and_eq_true] at h
    obtain ⟨hlo, hhi, hq, hbs⟩ := plainChar_spec c h.1
    match fuel, hf with
    | f + 1, hf =>
      simp only [List.cons_append, parseJStringF, if_neg hq, if_neg hbs]
      rw [if_neg (by omega : ¬c.toNat < 32), List.append_eq]
      rw [ih f h.2 (by simpa using Nat.lt_of_succ_lt_succ hf)]
      rfl

theorem skipWs_not_ws (c : Char) (t : List Char) (h : isJsonWs c = false) :
    skipWs (c :: t) = c :: t := by
  simp [skipWs, List.dropWhile_cons, h]

theorem dumpsInner_cons_head (s : List Char) (L : List (List Char)) :
    ∃ t, dumpsInner (s :: L) = '"' :: t := by
  cases L <;> simp [dumpsInner, quoteChars]

theorem parseElemsF_dumps (L : List (List Char)) :
    ∀ (fuel : ℕ) (rest : List Char), (∀ s ∈ L, s.all plainChar = true) → L ≠ [] →
    L.length ≤ fuel → parseElemsF fuel (dumpsInner L ++ ']' :: rest) = some (L, rest) := by
  induction L with
  | nil => intro fuel rest _ hne _; exact absurd rfl hne
  | cons s L ih =>
    intro fuel rest hall _ hlen
    match fuel, hlen with
    | f + 1, hlen =>
    cases L with
    | nil =>
      have hplain : escList s = s := escList_plain s (hall s (by simp))
      have harr : dumpsInner [s] ++ ']' :: rest = '"' :: (s ++ '"' :: ']' :: rest) := by
        simp [dumpsInner, quoteChars, hplain]
      have hps := parseJStringF_plain s (']' :: rest) (s ++ '"' :: ']' :: rest).length
        (hall s (by simp)) (by simp)
      have hsk : skipWs (']' :: rest) = ']' :: rest := skipWs_not_ws _ _ (by decide)
      rw [harr]
      simp only [parseElemsF, reduceIte]
      rw [hps]
      simp [hsk]
    | cons s2 L2 =>
      have hplain : escList s = s := escList_plain s (hall s (by simp))
      obtain ⟨t2, ht2⟩ := dumpsInner_cons_head s2 L2
      have harr : dumpsInner (s :: s2 :: L2) ++ ']' :: rest =
          '"' :: (s ++ '"' :: ',' :: ' ' :: (dumpsInner (s2 :: L2) ++ ']' :: rest)) := by
        simp [dumpsInner, quoteChars, hplain]
      have hps := parseJStringF_plain s (',' :: ' ' :: (dumpsInner (s2 :: L2) ++ ']' :: rest))
        (s ++ '"' :: ',' :: ' ' :: (dumpsInner (s2 :: L2) ++ ']' :: rest)).length
        (hall s (by simp)) (by simp)
      have hsk : skipWs (',' :: ' ' :: (dumpsInner (s2 :: L2) ++ ']' :: rest)) =
          ',' :: ' ' :: (dumpsInner (s2 :: L2) ++ ']' :: rest) := skipWs_not_ws _ _ (by decide)
      have hsp : skipWs (' ' :: (dumpsInner (s2 :: L2) ++ ']' :: rest)) =
          dumpsInner (s2 :: L2) ++ ']' :: rest := by
        rw [ht2]
        simp only [List.cons_append, skipWs, List.dropWhile_cons,
          (by decide : isJsonWs ' ' = true), (by decide : isJsonWs '"' = false)]
        simp
      have hrec := ih f rest (fun x hx => hall x (by simp [hx])) (by simp)
        (by simp only [List.length_cons] at hlen ⊢; omega)
      rw [harr]
      simp only [parseElemsF, reduceIte]
      rw [hps]
      simp [hsk, hsp, hrec]

theorem dumpsInner_length_ge (L : List (List Char)) : L.length ≤ (dumpsInner L).length := by
  induction L with
  | nil => simp [dumpsInner]
  | cons s L ih =>
    cases L with
    | nil => simp [dumpsInner, quoteChars]
    | cons s2 L2 =>
      simp only [dumpsInner, quoteChars, List.length_append, List.length_cons] at ih ⊢
      omega

theorem string_mk_data (s : String) : String.mk s.data = s := rfl

theorem loads_dumps (l : List String) (h : ∀ s ∈ l, plainStr s = true) :
    loadsStrList (dumpsList l) = some l := by
  cases l with
  | nil => rfl
  | cons s l =>
    obtain ⟨t2, ht2⟩ := dumpsInner_cons_head s.data (l.map String.data)
    have hall : ∀ x ∈ (s :: l).map String.data, x.all plainChar = true := by
      intro x hx
      simp only [List.mem_map] at hx
      obtain ⟨y, hy, rfl⟩ := hx
      exact h y hy
    have hfuel : ((s :: l).map String.data).length ≤ (dumpsList (s :: l)).length + 1 := by
      have h1 := dumpsInner_length_ge ((s :: l).map String.data)
      have h2 : (dumpsList (s :: l)).length =
          ('[' :: (dumpsInner ((s :: l).map String.data) ++ [']'])).length := rfl
      simp only [List.length_cons, List.length_append] at h1 h2 ⊢
      omega
    have hparse := parseElemsF_dumps ((s :: l).map String.data)
      ((dumpsList (s :: l)).length + 1) [] hall (by simp) hfuel
    have hdata : (dumpsList (s :: l)).data = '[' :: ('"' :: (t2 ++ [']'])) := by
      show '[' :: (dumpsInner ((s :: l).map String.data) ++ [']']) = _
      rw [show (s :: l).map String.data = s.data :: l.map String.data from rfl, ht2]
      rfl
    have hparse2 : parseElemsF ((dumpsList (s :: l)).length + 1) ('"' :: (t2 ++ [']'])) =
        some ((s :: l).map String.data, []) := by
      rw [show ('"' :: (t2 ++ [']']) : List Char) = ('"' :: t2) ++ ']' :: [] from rfl, ← ht2]
      rw [show (s :: l).map String.data = s.data :: l.map String.data from rfl] at hparse ⊢
      exact hparse
    unfold loadsStrList
    rw [hdata, skipWs_not_ws '[' _ (by decide)]
    have hsk2 : skipWs ('"' :: (t2 ++ [']'])) = '"' :: (t2 ++ [']']) :=
      skipWs_not_ws _ _ (by decide)
    simp only [hsk2, hparse2]
    simp [hparse2, string_mk_data, List.map_map, Function.comp]
    constructor
    · rfl
    · have hcomp : (String.mk ∘ String.data) = id := funext fun x => string_mk_data x
      rw [hcomp, List.map_id]

theorem suggestionsOf_plain (p : ProductInput) : ∀ s ∈ suggestionsOf p, plainStr s = true := by
  intro s hs
  simp only [suggestionsOf, List.mem_append] at hs
  rcases hs with (((h | h) | h) | h) | h <;>
    (split at h
     · simp only [List.mem_singleton] at h; subst h; decide
     · simp at h)

theorem roundtrip_suggestions (p : ProductInput) :
    loadsStrList (dumpsList (suggestionsOf p)) = some (suggestionsOf p) :=
  loads_dumps _ (suggestionsOf_plain p)

/-! ## Repository lemmas -/

theorem foldl_insertSub (inputs : List ProductInput) :
    ∀ st : List Submission, inputs.foldl insertSub st = st ++ buildFrom st.length inputs := by
  induction inputs with
  | nil => intro st; simp [buildFrom]
  | cons p ps ih =>
    intro st
    simp only [List.foldl_cons, buildFrom]
    rw [ih (insertSub st p)]
    simp [insertSub, List.append_assoc]

theorem processAll_eq (inputs : List ProductInput) : processAll inputs = buildFrom 0 inputs := by
  simpa using foldl_insertSub inputs []

theorem buildFrom_length (k : ℕ) (l : List ProductInput) :
    (buildFrom k l).length = l.length := by
  induction l generalizing k with
  | nil => rfl
  | cons p ps ih => simp [buildFrom, ih]

theorem buildFrom_ids (k : ℕ) (l : List ProductInput) :
    (buildFrom k l).map Submission.id = List.range' (k + 1) l.length := by
  induction l generalizing k with
  | nil => rfl
  | cons p ps ih => simp [buildFrom, mkEntry, List.range', ih]

theorem buildFrom_history (k : ℕ) (l : List ProductInput) :
    get_history (buildFrom k l) = some (l.map itemOf) := by
  induction l generalizing k with
  | nil => rfl
  | cons p ps ih =>
    have hrt := roundtrip_suggestions p
    have ih2 := ih (k + 1)
    simp only [get_history] at ih2
    simp only [buildFrom, get_history, List.mapM_cons, mkEntry, hrt, ih2, itemOf]
    rfl

theorem countRatings_spec (l : List Submission) :
    (countRatings l).A = (l.filter (fun e => e.rating == "A")).length ∧
    (countRatings l).B = (l.filter (fun e => e.rating == "B")).length ∧
    (countRatings l).C = (l.filter (fun e => e.rating == "C")).length ∧
    (countRatings l).D = (l.filter (fun e => e.rating == "D")).length := by
  induction l with
  | nil => exact ⟨rfl, rfl, rfl, rfl⟩
  | cons e t ih =>
    obtain ⟨ihA, ihB, ihC, ihD⟩ := ih
    simp only [countRatings, List.filter_cons]
    split_ifs with h1 h2 h3 h4 <;>
      simp_all <;> omega

/-! ## Validator lemmas -/

theorem checkFields_eq_head (L : List (String × Option JVal × (JVal → Bool) × String)) :
    checkFields L = (fieldErrs L).head? := by
  induction L with
  | nil => rfl
  | cons x rest ih =>
    obtain ⟨f, v?, ty, tyStr⟩ := x
    cases v? with
    | none => rfl
    | some v =>
      by_cases hty : ty v = true
      · simp [checkFields, fieldErrs, fieldErr, hty, ih]
      · simp only [Bool.not_eq_true] at hty
        simp [checkFields, fieldErrs, fieldErr, hty]

theorem isStr_iff (v : JVal) : v.isStr = true ↔ ∃ s, v = JVal.str s := by
  cases v <;> simp [JVal.isStr]

theorem isList_iff (v : JVal) : v.isList = true ↔ ∃ xs, v = JVal.list xs := by
  cases v <;> simp [JVal.isList]

theorem isNum_iff (v : JVal) :
    v.isNum = true ↔ (∃ q, v = JVal.num q) ∨ (∃ b, v = JVal.bool b) := by
  cases v <;> simp [JVal.isNum]

/-! ## Stable sort versus rank sort (for the top-issues refinement) -/

theorem insSpec_mem (x q : (String × ℕ) × ℕ) (L : List ((String × ℕ) × ℕ))
    (h : q ∈ insSpec x L) : q = x ∨ q ∈ L := by
  induction L with
  | nil => simpa [insSpec] using h
  | cons y ys ih =>
    simp only [insSpec] at h
    by_cases hp : specPrecedes x y = true
    · rw [if_pos hp] at h
      simp only [List.mem_cons] at h ⊢
      tauto
    · rw [if_neg hp] at h
      simp only [List.mem_cons] at h ⊢
      rcases h with h | h
      · tauto
      · rcases ih h with h2 | h2 <;> tauto

theorem sortSpec_mem (L : List ((String × ℕ) × ℕ)) (q : (String × ℕ) × ℕ)
    (h : q ∈ sortSpec L) : q ∈ L := by
  induction L generalizing q with
  | nil => simpa [sortSpec] using h
  | cons x xs ih =>
    simp only [sortSpec] at h
    rcases insSpec_mem x q (sortSpec xs) h with h2 | h2
    · simp [h2]
    · simp [ih q h2]

theorem insSpec_map_fst (x : (String × ℕ) × ℕ) (L : List ((String × ℕ) × ℕ))
    (hx : ∀ p ∈ L, x.2 < p.2) :
    (insSpec x L).map Prod.fst = insStable x.1 (L.map Prod.fst) := by
  induction L with
  | nil => rfl
  | cons y ys ih =>
    have hxy : x.2 < y.2 := hx y (by simp)
    by_cases hc : y.1.2 ≤ x.1.2
    · have h1 : specPrecedes x y = true := by
        simp only [specPrecedes, Bool.or_eq_true, decide_eq_true_eq, Bool.and_eq_true,
          beq_iff_eq]
        omega
      simp [insSpec, insStable, h1, hc]
    · have h1 : specPrecedes x y = false := by
        simp only [specPrecedes, Bool.or_eq_false_iff, decide_eq_false_iff_not,
          Bool.and_eq_false_iff, beq_eq_false_iff_ne, ne_eq]
        omega
      have ih2 := ih (fun p hp => hx p (by simp [hp]))
      simp [insSpec, insStable, h1, hc, ih2]

theorem sortSpec_map_fst (L : List ((String × ℕ) × ℕ))
    (hL : List.Pairwise (fun a b => a.2 < b.2) L) :
    (sortSpec L).map Prod.fst = stableSortDesc (L.map Prod.fst) := by
  induction L with
  | nil => rfl
  | cons x xs ih =>
    rw [List.pairwise_cons] at hL
    simp only [sortSpec, stableSortDesc, List.map_cons]
    rw [← ih hL.2]
    exact insSpec_map_fst x (sortSpec xs) (fun p hp => hL.1 p (sortSpec_mem xs p hp))

theorem enumFrom_fst_ge {α : Type} (l : List α) :
    ∀ (n : ℕ) (p : ℕ × α), p ∈ l.enumFrom n → n ≤ p.1 := by
  induction l with
  | nil => intro n p hp; simp [List.enumFrom] at hp
  | cons x xs ih =>
    intro n p hp
    simp only [List.enumFrom, List.mem_cons] at hp
    rcases hp with hp | hp
    · simp [hp]
    · have := ih (n + 1) p hp
      omega

theorem pairwise_enumFrom {α : Type} (l : List α) :
    ∀ n : ℕ, List.Pairwise (fun a b : ℕ × α => a.1 < b.1) (l.enumFrom n) := by
  induction l with
  | nil => intro n; simp [List.enumFrom]
  | cons x xs ih =>
    intro n
    simp only [List.enumFrom, List.pairwise_cons]
    refine ⟨?_, ih (n + 1)⟩
    intro p hp
    have := enumFrom_fst_ge xs (n + 1) p hp
    omega

theorem round2_intCast (n : ℤ) : round2 ((n : ℚ)) = ((n : ℚ)) := by
  unfold round2 roundHalfEven
  have hx : ((n : ℚ) * 100) = (((n * 100 : ℤ) : ℚ)) := by push_cast; ring
  rw [hx, Rat.num_intCast, Rat.den_intCast]
  simp only [Nat.cast_one, Int.fdiv_one, mul_one, sub_self, mul_zero]
  rw [if_pos (by omega : (0 : ℤ) < 1)]
  push_cast
  field_simp

/-! ## Claims -/

/-- C1: for the input `{product_name: "Test Bottle", materials: ["plastic"],
weight_grams: 300, transport: "air", packaging: "non-recyclable"}` the
Scorer returns score 75 (= 100 - 10 - 15), rating "B", and exactly the
suggestions ["Avoid using plastic", "Avoid air transport", "Use recyclable
or biodegradable packaging"] in that rule order. -/
theorem C1_scenario1 :
    computeScore ⟨"Test Bottle", [JScalar.str "plastic"], 300, "air", "non-recyclable"⟩ =
      ⟨75, "B", ["Avoid using plastic", "Avoid air transport",
                 "Use recyclable or biodegradable packaging"]⟩ := by
  decide

/-- C2: the Scorer never clamps the score to [0, 100]: the rating is
derived from the post-rule score by the thresholds ≥90 → A, ≥75 → B,
≥60 → C, else D, and the input `{materials: ["recycled"], weight_grams:
100, transport: "rail", packaging: "recyclable"}` yields score 125
(above 100, kept as is), rating "A", and no suggestions. -/
theorem C2_no_clamp_thresholds :
    computeScore ⟨"", [JScalar.str "recycled"], 100, "rail", "recyclable"⟩ =
      ⟨125, "A", []⟩ ∧
    (∀ s : ℤ, (ratingOf s = "A" ↔ 90 ≤ s) ∧
              (ratingOf s = "B" ↔ 75 ≤ s ∧ s < 90) ∧
              (ratingOf s = "C" ↔ 60 ≤ s ∧ s < 75) ∧
              (ratingOf s = "D" ↔ s < 60)) := by
  constructor
  · decide
  · intro s
    unfold ratingOf
    split_ifs with h1 h2 h3 <;> refine ⟨?_, ?_, ?_, ?_⟩ <;> simp_all <;> omega

/-- C8: the rating function is monotone non-decreasing in the score under
the ordering A > B > C > D (encoded as ranks 3 > 2 > 1 > 0). -/
theorem C8_rating_monotone (s1 s2 : ℤ) (h : s1 > s2) :
    ratingRank (ratingOf s2) ≤ ratingRank (ratingOf s1) := by
  have hr : ∀ s : ℤ, ratingRank (ratingOf s) =
      if 90 ≤ s then 3 else if 75 ≤ s then 2 else if 60 ≤ s then 1 else 0 := by
    intro s
    unfold ratingOf ratingRank
    split_ifs <;> simp_all
  rw [hr, hr]
  split_ifs <;> omega

/-- Witness for C8 at the concrete pair 91 > 74. -/
theorem C8_rating_monotone_witness :
    (91 : ℤ) > 74 ∧ ratingRank (ratingOf 74) ≤ ratingRank (ratingOf 91) :=
  ⟨by decide, C8_rating_monotone 91 74 (by decide)⟩

/-- C9: the Scorer is a pure function of (materials, weight_grams,
transport, packaging) only: two valid inputs agreeing on those four
fields (the product name may differ) get the same (score, rating,
suggestions) triple. -/
theorem C9_score_pure (p1 p2 : ProductInput)
    (hm : p1.materials = p2.materials) (hw : p1.weight_grams = p2.weight_grams)
    (ht : p1.transport = p2.transport) (hpk : p1.packaging = p2.packaging) :
    computeScore p1 = computeScore p2 := by
  obtain ⟨n1, m1, w1, t1, k1⟩ := p1
  obtain ⟨n2, m2, w2, t2, k2⟩ := p2
  dsimp only at hm hw ht hpk
  subst hm; subst hw; subst ht; subst hpk
  rfl

/-- Witness for C9: two inputs that differ only in product name. -/
theorem C9_score_pure_witness :
    computeScore ⟨"X", [JScalar.str "plastic"], 300, "air", "non-recyclable"⟩ =
      computeScore ⟨"Y", [JScalar.str "plastic"], 300, "air", "non-recyclable"⟩ :=
  C9_score_pure _ _ rfl rfl rfl rfl

theorem fieldErr_nil (f : String) (v? : Option JVal) (ty : JVal → Bool) (tyStr : String) :
    fieldErr (f, v?, ty, tyStr) = [] ↔ ∃ v, v? = some v ∧ ty v = true := by
  cases v? with
  | none => simp [fieldErr]
  | some v =>
    by_cases hty : ty v = true <;> simp [fieldErr, hty]

/-- C5: `validate` checks fields in the fixed order product_name,
materials, weight_grams, transport, packaging, runs all presence/type
checks before any enum check, returns only the first failing check's
message, and returns absence of a value on success: it equals the head of
the spec-ordered list of all failing checks. -/
theorem C5_validate_first_error (d : RawData) :
    validate_input d = (specValidationErrors d).head? := by
  have hspec : specValidationErrors d =
      fieldErrs (fieldChecks d) ++
      ((if (allowedTransports.map JVal.str).contains (d.transport.getD JVal.null) then []
        else ["'transport' must be one of ['air', 'rail', 'sea', 'road']"]) ++
       (if (allowedPackaging.map JVal.str).contains (d.packaging.getD JVal.null) then []
        else ["'packaging' must be one of ['recyclable', 'biodegradable', 'non-recyclable']"])) := by
    simp [specValidationErrors, fieldErrs, fieldChecks, fieldErr]
  rw [hspec]
  cases hfe : fieldErrs (fieldChecks d) with
  | cons e t =>
    have hcf : checkFields (fieldChecks d) = some e := by
      rw [checkFields_eq_head, hfe]; rfl
    simp [validate_input, hcf]
  | nil =>
    have hcf : checkFields (fieldChecks d) = none := by
      rw [checkFields_eq_head, hfe]; rfl
    simp only [validate_input, hcf, List.nil_append]
    rcases Bool.eq_false_or_eq_true
        ((allowedTransports.map JVal.str).contains (d.transport.getD JVal.null)) with ht | ht <;>
      rcases Bool.eq_false_or_eq_true
        ((allowedPackaging.map JVal.str).contains (d.packaging.getD JVal.null)) with hp2 | hp2 <;>
      rw [ht, hp2] <;> rfl

/-- Witness for C5 at a concrete record whose transport fails the enum
check while every presence/type check passes. -/
theorem C5_validate_first_error_witness :
    validate_input ⟨some (JVal.str "Bottle"), some (JVal.list []), some (JVal.num 10),
        some (JVal.str "spaceship"), some (JVal.str "recyclable")⟩ =
      (specValidationErrors ⟨some (JVal.str "Bottle"), some (JVal.list []),
        some (JVal.num 10), some (JVal.str "spaceship"), some (JVal.str "recyclable")⟩).head? :=
  C5_validate_first_error _

/-- C4 counterexample: the record with empty product_name and negative
weight_grams `{product_name: "", materials: [], weight_grams: -5,
transport: "road", packaging: "recyclable"}` is accepted by `validate`
(no error), yet violates the claimed invariant (non-empty name,
non-negative weight). -/
theorem C4_counterexample :
    validate_input ⟨some (JVal.str ""), some (JVal.list []), some (JVal.num (-5)),
        some (JVal.str "road"), some (JVal.str "recyclable")⟩ = none ∧
    ¬ productNameWeightInvariant ⟨some (JVal.str ""), some (JVal.list []),
        some (JVal.num (-5)), some (JVal.str "road"), some (JVal.str "recyclable")⟩ := by
  constructor
  · decide
  · intro h
    obtain ⟨⟨s, hs, hne⟩, -⟩ := h
    simp only [Option.some.injEq, JVal.str.injEq] at hs
    exact hne hs.symm

/-- C4 amended: every record accepted by `validate` has all five fields
present with the required types, and transport/packaging inside their
enumerations — but the name may be empty and the weight negative, since
`validate` checks only presence, type and the two enums. -/
theorem C4_validate_accept_shape (d : RawData) (h : validate_input d = none) :
    (∃ s, d.product_name = some (JVal.str s)) ∧
    (∃ xs, d.materials = some (JVal.list xs)) ∧
    (∃ w, d.weight_grams = some w ∧ w.isNum = true) ∧
    (∃ t, d.transport = some (JVal.str t) ∧ t ∈ allowedTransports) ∧
    (∃ pk, d.packaging = some (JVal.str pk) ∧ pk ∈ allowedPackaging) := by
  unfold validate_input at h
  cases hcf : checkFields (fieldChecks d) with
  | some e => rw [hcf] at h; simp at h
  | none =>
    rw [hcf] at h
    have hfe : fieldErrs (fieldChecks d) = [] := by
      have h2 := checkFields_eq_head (fieldChecks d)
      rw [hcf] at h2
      cases hx : fieldErrs (fieldChecks d) with
      | nil => rfl
      | cons a b => rw [hx] at h2; simp at h2
    simp only [fieldErrs, fieldChecks, List.foldr_cons, List.foldr_nil, List.append_nil,
      List.append_eq_nil] at hfe
    obtain ⟨h1, h2, h3, h4, h5⟩ := hfe
    obtain ⟨v1, hv1, ht1⟩ := (fieldErr_nil _ _ _ _).mp h1
    obtain ⟨v2, hv2, ht2⟩ := (fieldErr_nil _ _ _ _).mp h2
    obtain ⟨v3, hv3, ht3⟩ := (fieldErr_nil _ _ _ _).mp h3
    obtain ⟨v4, hv4, ht4⟩ := (fieldErr_nil _ _ _ _).mp h4
    obtain ⟨v5, hv5, ht5⟩ := (fieldErr_nil _ _ _ _).mp h5
    obtain ⟨s1, rfl⟩ := (isStr_iff v1).mp ht1
    obtain ⟨xs2, rfl⟩ := (isList_iff v2).mp ht2
    obtain ⟨t4, rfl⟩ := (isStr_iff v4).mp ht4
    obtain ⟨k5, rfl⟩ := (isStr_iff v5).mp ht5
    refine ⟨⟨s1, hv1⟩, ⟨xs2, hv2⟩, ⟨v3, hv3, ht3⟩, ⟨t4, hv4, ?_⟩, ⟨k5, hv5, ?_⟩⟩
    · rcases Bool.eq_false_or_eq_true
          ((allowedTransports.map JVal.str).contains (d.transport.getD JVal.null)) with hc | hc
      · rw [hv4] at hc
        simpa [List.contains_iff_exists_mem_beq, List.mem_map, beq_iff_eq,
          JVal.str.injEq, eq_comm] using hc
      · rw [hc] at h; simp at h
    · rcases Bool.eq_false_or_eq_true
          ((allowedPackaging.map JVal.str).contains (d.packaging.getD JVal.null)) with hc | hc
      · rw [hv5] at hc
        simpa [List.contains_iff_exists_mem_beq, List.mem_map, beq_iff_eq,
          JVal.str.injEq, eq_comm] using hc
      · rcases Bool.eq_false_or_eq_true
            ((allowedTransports.map JVal.str).contains (d.transport.getD JVal.null)) with hc2 | hc2 <;>
          rw [hc, hc2] at h <;> simp at h

/-- Witness for the amended C4 at a concrete accepted record. -/
theorem C4_validate_accept_shape_witness :
    validate_input ⟨some (JVal.str "Bottle"), some (JVal.list [JScalar.str "wood"]),
        some (JVal.num 12), some (JVal.str "sea"), some (JVal.str "biodegradable")⟩ = none ∧
    (∃ s, (some (JVal.str "Bottle") : Option JVal) = some (JVal.str s)) := by
  refine ⟨by decide, ?_⟩
  exact (C4_validate_accept_shape ⟨some (JVal.str "Bottle"),
    some (JVal.list [JScalar.str "wood"]), some (JVal.num 12), some (JVal.str "sea"),
    some (JVal.str "biodegradable")⟩ (by decide)).1

theorem scoreOf_bounds (p : ProductInput) :
    5 ∣ scoreOf p ∧ 70 ≤ scoreOf p ∧ scoreOf p ≤ 130 := by
  unfold scoreOf
  split_ifs <;> refine ⟨by decide, by decide, by decide⟩

theorem suggestionsOf_len_le (p : ProductInput) : (suggestionsOf p).length ≤ 5 := by
  unfold suggestionsOf
  split_ifs <;> simp

/-- C10 counterexample: the validated input `{product_name: "W",
materials: ["plastic", "aluminum"], weight_grams: 600, transport: "air",
packaging: "non-recyclable"}` triggers all five suggestion-appending
rules, so the Scorer appends 5 suggestions, not at most 4 as claimed. -/
theorem C10_counterexample :
    validate_input ⟨some (JVal.str "W"),
        some (JVal.list [JScalar.str "plastic", JScalar.str "aluminum"]),
        some (JVal.num 600), some (JVal.str "air"), some (JVal.str "non-recyclable")⟩ = none ∧
    parseInput ⟨some (JVal.str "W"),
        some (JVal.list [JScalar.str "plastic", JScalar.str "aluminum"]),
        some (JVal.num 600), some (JVal.str "air"), some (JVal.str "non-recyclable")⟩ =
      some ⟨"W", [JScalar.str "plastic", JScalar.str "aluminum"], 600, "air", "non-recyclable"⟩ ∧
    (suggestionsOf ⟨"W", [JScalar.str "plastic", JScalar.str "aluminum"], 600, "air",
        "non-recyclable"⟩).length = 5 ∧
    ¬ (suggestionsOf ⟨"W", [JScalar.str "plastic", JScalar.str "aluminum"], 600, "air",
        "non-recyclable"⟩).length ≤ 4 := by
  refine ⟨by decide, by decide, by decide, by decide⟩

/-- C10 amended: for every input that passes validation, the score is an
integer multiple of 5 in [70, 130] (so rounding to 2 decimals leaves it
unchanged), the rating is never "D", and at most 5 suggestions are
appended (5 is reachable, see the counterexample to the original
"at most 4"). -/
theorem C10_score_invariants (d : RawData) (p : ProductInput)
    (hv : validate_input d = none) (hp : parseInput d = some p) :
    5 ∣ scoreOf p ∧ 70 ≤ scoreOf p ∧ scoreOf p ≤ 130 ∧
    round2 ((scoreOf p : ℚ)) = ((scoreOf p : ℚ)) ∧
    ratingOf (scoreOf p) ≠ "D" ∧ (suggestionsOf p).length ≤ 5 := by
  obtain ⟨hd, h70, h130⟩ := scoreOf_bounds p
  refine ⟨hd, h70, h130, round2_intCast _, ?_, suggestionsOf_len_le p⟩
  unfold ratingOf
  split_ifs with h1 h2 h3 <;> first | decide | omega

/-- Witness for the amended C10 at a concrete validated input. -/
theorem C10_score_invariants_witness :
    validate_input ⟨some (JVal.str "W"), some (JVal.list [JScalar.str "plastic"]),
        some (JVal.num 300), some (JVal.str "air"), some (JVal.str "non-recyclable")⟩ = none ∧
    (5 ∣ scoreOf ⟨"W", [JScalar.str "plastic"], 300, "air", "non-recyclable"⟩ ∧
     70 ≤ scoreOf ⟨"W", [JScalar.str "plastic"], 300, "air", "non-recyclable"⟩ ∧
     scoreOf ⟨"W", [JScalar.str "plastic"], 300, "air", "non-recyclable"⟩ ≤ 130 ∧
     round2 ((scoreOf ⟨"W", [JScalar.str "plastic"], 300, "air", "non-recyclable"⟩ : ℚ)) =
       ((scoreOf ⟨"W", [JScalar.str "plastic"], 300, "air", "non-recyclable"⟩ : ℚ)) ∧
     ratingOf (scoreOf ⟨"W", [JScalar.str "plastic"], 300, "air", "non-recyclable"⟩) ≠ "D" ∧
     (suggestionsOf ⟨"W", [JScalar.str "plastic"], 300, "air", "non-recyclable"⟩).length ≤ 5) :=
  ⟨by decide,
   C10_score_invariants
     ⟨some (JVal.str "W"), some (JVal.list [JScalar.str "plastic"]), some (JVal.num 300),
      some (JVal.str "air"), some (JVal.str "non-recyclable")⟩
     ⟨"W", [JScalar.str "plastic"], 300, "air", "non-recyclable"⟩
     (by decide) (by decide)⟩

/-- C7: the ratings histogram always maps exactly the four letters to
counts: a submission rated A/B/C/D is counted under its letter, and a
submission with any other rating is silently ignored; on empty input the
summary is total_products = 0, average_score = 0, all four ratings 0 and
top_issues empty. -/
theorem C7_ratings_histogram :
    summarize [] = some ⟨0, 0, ⟨0, 0, 0, 0⟩, []⟩ ∧
    ∀ (entries : List Submission) (s : Summary), summarize entries = some s →
      s.ratings.A = (entries.filter (fun e => e.rating == "A")).length ∧
      s.ratings.B = (entries.filter (fun e => e.rating == "B")).length ∧
      s.ratings.C = (entries.filter (fun e => e.rating == "C")).length ∧
      s.ratings.D = (entries.filter (fun e => e.rating == "D")).length := by
  refine ⟨rfl, ?_⟩
  intro entries s hs
  unfold summarize at hs
  cases entries with
  | nil =>
    simp only [List.isEmpty_nil, if_pos] at hs
    injection hs with hs
    subst hs
    exact ⟨rfl, rfl, rfl, rfl⟩
  | cons e t =>
    rw [if_neg (by simp)] at hs
    cases hm : (e :: t).mapM (fun x => loadsStrList x.suggestions) with
    | none => rw [hm] at hs; simp at hs
    | some sugg =>
      rw [hm] at hs
      injection hs with hs
      subst hs
      exact countRatings_spec (e :: t)

unseal Rat.mul Rat.add Rat.sub Rat.inv in
/-- Witness for C7: a single stored submission whose rating "E" is
outside {A, B, C, D} is counted under no histogram key. -/
theorem C7_ratings_histogram_witness :
    summarize [⟨1, "x", 75, "E", "[]"⟩] = some ⟨1, 75, ⟨0, 0, 0, 0⟩, []⟩ ∧
    ((⟨1, 75, ⟨0, 0, 0, 0⟩, []⟩ : Summary).ratings.A =
      (([⟨1, "x", 75, "E", "[]"⟩] : List Submission).filter
        (fun e => e.rating == "A")).length ∧
     (⟨1, 75, ⟨0, 0, 0, 0⟩, []⟩ : Summary).ratings.B =
      (([⟨1, "x", 75, "E", "[]"⟩] : List Submission).filter
        (fun e => e.rating == "B")).length ∧
     (⟨1, 75, ⟨0, 0, 0, 0⟩, []⟩ : Summary).ratings.C =
      (([⟨1, "x", 75, "E", "[]"⟩] : List Submission).filter
        (fun e => e.rating == "C")).length ∧
     (⟨1, 75, ⟨0, 0, 0, 0⟩, []⟩ : Summary).ratings.D =
      (([⟨1, "x", 75, "E", "[]"⟩] : List Submission).filter
        (fun e => e.rating == "D")).length) := by
  constructor
  · decide
  · exact C7_ratings_histogram.2 [⟨1, "x", 75, "E", "[]"⟩] ⟨1, 75, ⟨0, 0, 0, 0⟩, []⟩
      (by decide)

theorem buildFrom_mapM (k : ℕ) (l : List ProductInput) :
    (buildFrom k l).mapM (fun e => loadsStrList e.suggestions) = some (l.map suggestionsOf) := by
  induction l generalizing k with
  | nil => rfl
  | cons p ps ih =>
    have ih2 := ih (k + 1)
    simp only [buildFrom, List.mapM_cons, mkEntry, roundtrip_suggestions p, ih2]
    rfl

/-- C6: after inserting N submissions into an empty store, the history
listing returns exactly N items in insertion order (identifiers 1..N);
each item's suggestions deserialize to exactly the list the Scorer
computed (the JSON round trip is the identity); and the summary's
average_score is the arithmetic mean of the stored scores rounded to 2
decimals. -/
theorem C6_repository_roundtrip (inputs : List ProductInput) :
    (processAll inputs).length = inputs.length ∧
    (processAll inputs).map Submission.id = List.range' 1 inputs.length ∧
    get_history (processAll inputs) = some (inputs.map itemOf) ∧
    Option.map Summary.average_score (summarize (processAll inputs)) =
      some (if inputs.length = 0 then 0
            else round2 (((processAll inputs).map Submission.sustainability_score).sum
                          / (inputs.length : ℚ))) := by
  refine ⟨?_, ?_, ?_, ?_⟩
  · rw [processAll_eq]; exact buildFrom_length 0 inputs
  · rw [processAll_eq]
    simpa using buildFrom_ids 0 inputs
  · rw [processAll_eq]; exact buildFrom_history 0 inputs
  · rw [processAll_eq]
    cases inputs with
    | nil => rfl
    | cons p ps =>
      have hmapm := buildFrom_mapM 0 (p :: ps)
      unfold summarize
      rw [if_neg (by simp [buildFrom]), hmapm]
      simp only [Option.map_some]
      rw [buildFrom_length]
      simp

theorem most_common3_eq_specTopIssues (l : List String) :
    most_common3 l = specTopIssues l := by
  unfold most_common3 specTopIssues
  dsimp only
  have hpair : List.Pairwise (fun a b : (String × ℕ) × ℕ => a.2 < b.2)
      ((counterItems l).enum.map (fun p => (p.2, p.1))) := by
    refine List.Pairwise.map _ (fun a b h => ?_) (pairwise_enumFrom (counterItems l) 0)
    simpa using h
  have hmap := sortSpec_map_fst _ hpair
  have henum : (((counterItems l).enum.map (fun p => (p.2, p.1))).map Prod.fst) =
      counterItems l := by
    simp only [List.map_map]
    have : ((fun p : (String × ℕ) × ℕ => p.1) ∘ fun p : ℕ × (String × ℕ) => (p.2, p.1)) =
        Prod.snd := rfl
    rw [this, List.enum_map_snd]
  rw [henum] at hmap
  have hfst : ((sortSpec ((counterItems l).enum.map (fun p => (p.2, p.1)))).map
      (fun q => q.1.1)) =
      ((sortSpec ((counterItems l).enum.map (fun p => (p.2, p.1)))).map Prod.fst).map
        Prod.fst := by
    simp [List.map_map, Function.comp]
  rw [hfst, hmap, List.map_take]

/-- C3: for every stored collection (whose suggestion blobs deserialize
to `sugg`), the summary's top_issues equals the spec-side computation:
flatten all suggestion lists, rank distinct texts by descending
frequency, break frequency ties by first-occurrence order in the
flattened sequence, and take the first 3. -/
theorem C3_top_issues (entries : List Submission) (sugg : List (List String)) (s : Summary)
    (hm : entries.mapM (fun e => loadsStrList e.suggestions) = some sugg)
    (hs : summarize entries = some s) :
    s.top_issues = specTopIssues sugg.flatten := by
  unfold summarize at hs
  cases entries with
  | nil =>
    simp only [List.isEmpty_nil, if_pos] at hs
    injection hs with hs
    subst hs
    have h0 : some ([] : List (List String)) = some sugg := hm
    injection h0 with h0
    subst h0
    rfl
  | cons e t =>
    rw [if_neg (by simp), hm] at hs
    injection hs with hs
    subst hs
    exact most_common3_eq_specTopIssues sugg.flatten

unseal Rat.mul Rat.add Rat.sub Rat.inv in
/-- Witness for C3, exercising a frequency tie: "X" occurs twice, "Y"
and "Z" once each with "Y" first-occurring earlier, so top_issues is
["X", "Y", "Z"]. -/
theorem C3_top_issues_witness :
    (([⟨1, "a", 75, "B", "[\"Y\", \"X\"]"⟩, ⟨2, "b", 75, "B", "[\"X\", \"Z\"]"⟩] :
        List Submission).mapM (fun e => loadsStrList e.suggestions) =
      some [["Y", "X"], ["X", "Z"]]) ∧
    summarize [⟨1, "a", 75, "B", "[\"Y\", \"X\"]"⟩, ⟨2, "b", 75, "B", "[\"X\", \"Z\"]"⟩] =
      some ⟨2, 75, ⟨0, 2, 0, 0⟩, ["X", "Y", "Z"]⟩ ∧
    (⟨2, 75, ⟨0, 2, 0, 0⟩, ["X", "Y", "Z"]⟩ : Summary).top_issues =
      specTopIssues ([["Y", "X"], ["X", "Z"]] : List (List String)).flatten :=
  ⟨by decide, by decide,
   C3_top_issues [⟨1, "a", 75, "B", "[\"Y\", \"X\"]"⟩, ⟨2, "b", 75, "B", "[\"X\", \"Z\"]"⟩]
     [["Y", "X"], ["X", "Z"]] ⟨2, 75, ⟨0, 2, 0, 0⟩, ["X", "Y", "Z"]⟩
     (by decide) (by decide)⟩
